import Mathlib

/-!
Verification development for two automation scripts of this repository:

* `.github/scripts/request_review.py` — a CI helper that maps a pull
  request's changed files to localization-team owners via a CODEOWNERS
  file and requests reviews from team members;
* `src/font/nerd_font_codegen.py` — a code generator that groups
  codepoints by glyph attributes and emits switch arms.

Python strings are modelled over their character lists; machine-level
details (logging text, HTTP transport) are abstracted, while control
flow, string manipulation and data-structure behaviour follow the
source line by line.  Python `dict`s are modelled as association lists
with insert-or-update-in-place semantics (a later assignment to an
existing key overwrites the value but keeps the key's original
position, as in CPython 3.7+ insertion-ordered dicts).
-/

/-- Python `str.split()` on a character list: split on runs of
whitespace, discarding empty fragments. -/
def py_words (cs : List Char) : List (List Char) :=
  (cs.foldr
    (fun c acc =>
      if c.isWhitespace then [] :: acc
      else
        match acc with
        | [] => [[c]]
        | w :: ws => (c :: w) :: ws)
    []).filter (fun w => decide (w ≠ []))

/-- Python `line.split()` (no separator argument). -/
def py_split (s : String) : List String :=
  (py_words s.data).map (fun w => String.mk w)

/-- Python `s.startswith(pre)`. -/
def starts_with (s pre : String) : Bool :=
  pre.data.isPrefixOf s.data

/-- Python `s.lstrip()` (strip leading whitespace). -/
def py_lstrip_ws (s : String) : String :=
  String.mk (s.data.dropWhile Char.isWhitespace)

/-- Python `path.lstrip("/")` (strip all leading slashes). -/
def lstrip_slash (s : String) : String :=
  String.mk (s.data.dropWhile (fun c => c == '/'))

/-- The organization name constant `ORG_NAME = "ghostty-org"`. -/
def ORG_NAME : String := "ghostty-org"

/-- The string removed by `owner.removeprefix(f"@{ORG_NAME}/")`. -/
def ORG_PRE : String := "@ghostty-org/"

/-- Python `owner.removeprefix("@ghostty-org/")`. -/
def remove_org (owner : String) : String :=
  if ORG_PRE.data.isPrefixOf owner.data then String.mk (owner.data.drop ORG_PRE.data.length)
  else owner

/-- Lowercase ASCII letter test, the character class `[a-z]`. -/
def is_lower (c : Char) : Bool := decide ('a' ≤ c ∧ c ≤ 'z')

/-- Uppercase ASCII letter test, the character class `[A-Z]`. -/
def is_upper (c : Char) : Bool := decide ('A' ≤ c ∧ c ≤ 'Z')

/-- Function `is_localization_team`: `re.fullmatch` of the pattern
`[a-z]{2}_[A-Z]{2}` — exactly five characters, two lowercase letters,
an underscore, two uppercase letters. -/
def is_localization_team (team_name : String) : Bool :=
  match team_name.data with
  | [c0, c1, c2, c3, c4] => is_lower c0 && is_lower c1 && (c2 == '_') && is_upper c3 && is_upper c4
  | _ => false

/-- Outcome of processing one CODEOWNERS line inside the parsing loop
of `fetch_and_parse_codeowners`: the line is skipped (`continue`), the
two-way unpacking `path, owner = line.split()` raises `ValueError`, or
a `(path, owner)` entry is retained. -/
inductive LineResult where
  | skip : LineResult
  | err : LineResult
  | entry : String → String → LineResult
deriving DecidableEq

/-- One iteration of the parsing loop of `fetch_and_parse_codeowners`:
empty lines and comment lines are skipped; otherwise the line must
split into exactly `path, owner`; the path loses leading slashes, the
owner loses the organization prefix, and the entry is retained only if
the owner matches the localization-team pattern. -/
def process_line (line : String) : LineResult :=
  if line = "" then LineResult.skip
  else if starts_with (py_lstrip_ws line) "#" then LineResult.skip
  else
    match py_split line with
    | [path, owner] =>
      let path2 := lstrip_slash path
      let owner2 := remove_org owner
      if is_localization_team owner2 then LineResult.entry path2 owner2 else LineResult.skip
    | _ => LineResult.err

/-- Python dict assignment `d[k] = v`: overwrite the value in place if
the key already exists, else append the new binding. -/
def dict_insert {α β : Type} [DecidableEq α] (d : List (α × β)) (k : α) (v : β) :
    List (α × β) :=
  if d.any (fun e => decide (e.1 = k)) then
    d.map (fun e => if e.1 = k then (k, v) else e)
  else d ++ [(k, v)]

/-- Python dict lookup `d.get(k)`. -/
def dict_lookup {α β : Type} [DecidableEq α] (d : List (α × β)) (k : α) : Option β :=
  match d.find? (fun e => decide (e.1 = k)) with
  | some e => some e.2
  | none => none

/-- Keys of an association-list dict, in order. -/
def dict_keys {α β : Type} (d : List (α × β)) : List α :=
  d.map (fun e => e.1)

/-- The parsing loop of `fetch_and_parse_codeowners` over the
remaining lines, carrying the dict built so far.  An unparsable line
raises `ValueError`, aborting the whole run (modelled as `Except.error`). -/
def parse_go (d : List (String × String)) : List String → Except Unit (List (String × String))
  | [] => Except.ok d
  | line :: rest =>
    match process_line line with
    | LineResult.skip => parse_go d rest
    | LineResult.err => Except.error ()
    | LineResult.entry p o => parse_go (dict_insert d p o) rest

/-- The parsing part of `fetch_and_parse_codeowners`, applied to the
lines of the fetched CODEOWNERS content. -/
def parse_codeowners (lines : List String) : Except Unit (List (String × String)) :=
  parse_go [] lines

/-- The owner-matching loop of `main` for one changed file: iterate
the codeowners dict in order and `break` at the first entry whose path
is a string prefix of the file (`file.startswith(path)`); `None` when
no entry matches (`for`/`else`). -/
def find_owner (codeowners : List (String × String)) (file : String) : Option String :=
  match codeowners.find? (fun e => starts_with file e.1) with
  | some e => some e.2
  | none => none

/-- The `found_owners` set accumulation of `main`: one enumeration of
the set, in first-insertion order.  (Python set iteration order is
unspecified; run-level theorems quantify over permutations of this
enumeration.) -/
def found_owners (codeowners : List (String × String)) (files : List String) : List String :=
  files.foldl
    (fun acc file =>
      match find_owner codeowners file with
      | some o => if acc.contains o then acc else acc ++ [o]
      | none => acc)
    []

/-- A fetched GitHub team: its parent team's slug (if any) and its
member logins. -/
structure Team where
  parent : Option String
  members : List String

/-- The constant `ALLOWED_PARENT_TEAM = "localization"`. -/
def ALLOWED_PARENT_TEAM : String := "localization"

/-- The decision logic of `get_team_members` after the team is
fetched: `if team.parent and team.parent.slug == ALLOWED_PARENT_TEAM`
return the member logins, else warn and return `[]`. -/
def get_team_members (team : Team) : List String :=
  match team.parent with
  | some slug => if slug = ALLOWED_PARENT_TEAM then team.members else []
  | none => []

/-- Observable actions of `request_review`: the debug log emitted when
the candidate equals the PR author, the review-request API call, and
the non-fatal failure log. -/
inductive ReviewAction where
  | skip_log : String → ReviewAction
  | request_call : String → ReviewAction
  | fail_log : String → ReviewAction
deriving DecidableEq

/-- Function `request_review(pr_number, user, pr_author)` as the sequence of
observable actions it performs.  NOTE: the source logs a skipping
message when `user == pr_author` but does not return, so the
review-request call is issued unconditionally; a failed call is logged
(`die=False`) and the coroutine returns normally. -/
def request_review (user pr_author : String) (call_ok : Bool) : List ReviewAction :=
  (if user = pr_author then [ReviewAction.skip_log user] else [])
    ++ [ReviewAction.request_call user]
    ++ (if call_ok then [] else [ReviewAction.fail_log user])

/-- The final `asyncio.gather` of `main`: one `request_review` per
element of `chain.from_iterable(member_lists)` (no deduplication). -/
def issue_review_requests (member_lists : List (List String)) (pr_author : String)
    (call_ok : String → Bool) : List ReviewAction :=
  member_lists.flatten.flatMap (fun user => request_review user pr_author (call_ok user))

/-- The users for whom a review-request API call is issued, in call
order (one element per call). -/
def requested_users (acts : List ReviewAction) : List String :=
  acts.filterMap (fun a =>
    match a with
    | ReviewAction.request_call u => some u
    | _ => none)

/-- The `asyncio.gather` of `get_team_members` over the matched
owners: any fatal team-fetch failure (`log_fail` with `die=True`)
aborts the run. -/
def fetch_members_all (team_fetch : String → Except Unit Team) :
    List String → Except Unit (List (List String))
  | [] => Except.ok []
  | owner :: rest =>
    match team_fetch owner with
    | Except.error e => Except.error e
    | Except.ok t =>
      match fetch_members_all team_fetch rest with
      | Except.error e => Except.error e
      | Except.ok ms => Except.ok (get_team_members t :: ms)

/-- The external-world inputs of one run of the script: the outcomes
of the fatal fetches (changed files, PR author, CODEOWNERS content,
team metadata) and the per-user outcome of the non-fatal
review-request calls. -/
structure RunInputs where
  changed_files : Except Unit (List String)
  author_fetch : Except Unit String
  codeowners_fetch : Except Unit (List String)
  team_fetch : String → Except Unit Team
  review_ok : String → Bool

/-- Function `main` as a function of the run inputs and of an enumeration order
for the `found_owners` set (Python set iteration order is
unspecified): fetch changed files, PR author and CODEOWNERS (each
fatal on failure, `sys.exit(1)`), parse, match owners, fetch members
of each matched team (fatal on failure), then issue one review-request
call per member-list element. -/
def run (inp : RunInputs) (owner_order : List String → List String) :
    Except Unit (List ReviewAction) :=
  match inp.changed_files with
  | Except.error e => Except.error e
  | Except.ok files =>
    match inp.author_fetch with
    | Except.error e => Except.error e
    | Except.ok author =>
      match inp.codeowners_fetch with
      | Except.error e => Except.error e
      | Except.ok lines =>
        match parse_codeowners lines with
        | Except.error e => Except.error e
        | Except.ok codeowners =>
          match fetch_members_all inp.team_fetch
              (owner_order (found_owners codeowners files)) with
          | Except.error e => Except.error e
          | Except.ok member_lists =>
            Except.ok (issue_review_requests member_lists author inp.review_ok)

/-- The review-request call set of a finished run (empty on a fatal
abort). -/
def run_request_users (r : Except Unit (List ReviewAction)) : List String :=
  match r with
  | Except.ok acts => requested_users acts
  | Except.error _ => []

/-- A concrete set of run inputs used to instantiate run-level
theorems. -/
def sample_inputs : RunInputs where
  changed_files := Except.ok ["docs/l10n/readme.md"]
  author_fetch := Except.ok "bob"
  codeowners_fetch := Except.ok ["/docs/l10n fr_FR"]
  team_fetch := fun _ => Except.ok ⟨some "localization", ["alice", "bob"]⟩
  review_ok := fun _ => true

/-- One patch-set entry extracted by `nerd_font_codegen.py`: the
`SymStart`/`SymEnd` codepoint range, the `Attributes["default"]`
value, and the integer-keyed attribute overrides, in dict order.
Codepoints are Python ints.  The attribute payload is kept abstract
(the script hashes attributes through `attr_key`, which involves
floats; theorems below are parametric in the grouping key). -/
structure PatchSet (A : Type) where
  symStart : Int
  symEnd : Int
  default_attr : A
  int_attrs : List (Int × A)

/-- Python `range(lo, hi + 1)` over ints: `lo, lo+1, ..., hi`. -/
def range_list (lo hi : Int) : List Int :=
  (List.range (hi + 1 - lo).toNat).map (fun (i : Nat) => lo + (i : Int))

/-- The `entries` dict built by `generate_zig_switch_arms`: for each
patch set, assign the default attributes to every codepoint of the
`SymStart..SymEnd` range, then merge (`|=`) the integer-keyed
attribute overrides. -/
def build_entries {A : Type} (patch_sets : List (PatchSet A)) : List (Int × A) :=
  patch_sets.foldl
    (fun entries e =>
      let entries2 :=
        (range_list e.symStart e.symEnd).foldl (fun d cp => dict_insert d cp e.default_attr)
          entries
      e.int_attrs.foldl (fun d kv => dict_insert d kv.1 kv.2) entries2)
    []

/-- Keys of a list, deduplicated keeping the first occurrence of each
key, in order — the key order of a `defaultdict` filled by appending. -/
def dedup_keep_first {K : Type} [DecidableEq K] : List K → List K
  | [] => []
  | k :: rest => k :: (dedup_keep_first rest).filter (fun x => decide (x ≠ k))

/-- The `grouped` defaultdict of `generate_zig_switch_arms`: group the
entry codepoints by `attr_key` of their attributes, groups in
first-occurrence order of the keys, each group in entry order. -/
def group_values {A K : Type} [DecidableEq K] (key : A → K) (entries : List (Int × A)) :
    List (List Int) :=
  (dedup_keep_first (entries.map (fun e => key e.2))).map
    (fun k => (entries.filter (fun e => decide (key e.2 = k))).map (fun e => e.1))

/-- Lexicographic comparison of int lists, the order used by Python's
`sorted(grouped.values())`. -/
def list_int_le : List Int → List Int → Bool
  | [], _ => true
  | _ :: _, [] => false
  | a :: as, b :: bs => if a < b then true else if b < a then false else list_int_le as bs

/-- Python `sorted(grouped.values())` (lists compare lexicographically). -/
def py_sorted_groups (gs : List (List Int)) : List (List Int) :=
  List.insertionSort (fun a b => list_int_le a b = true) gs

/-- The grouping part of `generate_zig_switch_arms`: build the entries
dict, `del entries[0]` (a `KeyError` if codepoint 0 is absent, modelled
as `Except.error`), then group the remaining codepoints by attribute
key and sort the groups; each emitted switch arm covers exactly one
group's codepoints. -/
def generate_zig_switch_arms {A K : Type} [DecidableEq K] (key : A → K)
    (patch_sets : List (PatchSet A)) : Except Unit (List (List Int)) :=
  let entries := build_entries patch_sets
  if entries.any (fun e => decide (e.1 = 0)) then
    Except.ok
      (py_sorted_groups (group_values key (entries.filter (fun e => decide (¬ e.1 = 0)))))
  else Except.error ()

/-- Python `sorted(codepoints)` over ints. -/
def py_sorted (codepoints : List Int) : List Int :=
  List.insertionSort (fun a b => a ≤ b) codepoints

/-- The loop of `coalesce_codepoints_to_ranges` over the remaining
sorted codepoints, carrying the current run's bounds `start..prev`; a
gap closes the current run and opens a new one, and the final run is
appended when the iterator is exhausted. -/
def coalesce_go (start prev : Int) : List Int → List (Int × Int)
  | [] => [(start, prev)]
  | cp :: rest =>
    if cp = prev + 1 then coalesce_go start cp rest
    else (start, prev) :: coalesce_go cp cp rest

/-- Function `coalesce_codepoints_to_ranges`: sort the codepoints and coalesce
consecutive runs into closed ranges; the empty list yields no ranges
(the suppressed `StopIteration`). -/
def coalesce_codepoints_to_ranges (codepoints : List Int) : List (Int × Int) :=
  match py_sorted codepoints with
  | [] => []
  | c :: rest => coalesce_go c c rest

/-- Membership of a codepoint in the union of a range list's closed
intervals. -/
def in_ranges (ranges : List (Int × Int)) (x : Int) : Prop :=
  ∃ r ∈ ranges, r.1 ≤ x ∧ x ≤ r.2

/-! ### Helper lemmas -/

theorem requested_users_append (a b : List ReviewAction) :
    requested_users (a ++ b) = requested_users a ++ requested_users b :=
  List.filterMap_append a b _

theorem requested_users_request_review (u pa : String) (b : Bool) :
    requested_users (request_review u pa b) = [u] := by
  by_cases h : u = pa <;> cases b <;>
    simp [request_review, requested_users, h, List.filterMap_cons]

theorem requested_users_flatMap (pa : String) (ok : String → Bool) (us : List String) :
    requested_users (us.flatMap (fun u => request_review u pa (ok u))) = us := by
  induction us with
  | nil => rfl
  | cons u rest ih =>
    rw [List.flatMap_cons, requested_users_append, requested_users_request_review, ih]
    rfl

theorem requested_users_issue (mls : List (List String)) (pa : String) (ok : String → Bool) :
    requested_users (issue_review_requests mls pa ok) = mls.flatten :=
  requested_users_flatMap pa ok mls.flatten

theorem process_line_entry_localized {line p o : String}
    (h : process_line line = LineResult.entry p o) : is_localization_team o = true := by
  unfold process_line at h
  split at h
  · exact LineResult.noConfusion h
  · split at h
    · exact LineResult.noConfusion h
    · split at h
      · dsimp only [] at h
        split at h
        · injection h with h1 h2
          subst h2
          assumption
        · exact LineResult.noConfusion h
      · exact LineResult.noConfusion h

theorem mem_dict_insert {α β : Type} [DecidableEq α] {d : List (α × β)} {k : α} {v : β}
    {e : α × β} (he : e ∈ dict_insert d k v) : e ∈ d ∨ e = (k, v) := by
  unfold dict_insert at he
  split at he
  · rcases List.mem_map.1 he with ⟨a, ha, hae⟩
    by_cases hk : a.1 = k
    · right
      rw [← hae, if_pos hk]
    · left
      rw [← hae, if_neg hk]
      exact ha
  · rcases List.mem_append.1 he with h1 | h2
    · exact Or.inl h1
    · exact Or.inr (List.mem_singleton.1 h2)

theorem parse_go_all_localized (lines : List String) :
    ∀ d0 d : List (String × String),
      parse_go d0 lines = Except.ok d →
      (∀ e ∈ d0, is_localization_team e.2 = true) →
      ∀ e ∈ d, is_localization_team e.2 = true := by
  induction lines with
  | nil =>
    intro d0 d h h0
    injection h with h1
    subst h1
    exact h0
  | cons line rest ih =>
    intro d0 d h h0
    unfold parse_go at h
    cases hl : process_line line with
    | skip =>
      rw [hl] at h
      exact ih d0 d h h0
    | err =>
      rw [hl] at h
      exact Except.noConfusion h
    | entry p o =>
      rw [hl] at h
      refine ih _ d h ?_
      intro e he
      rcases mem_dict_insert he with h1 | h2
      · exact h0 e h1
      · rw [h2]
        exact process_line_entry_localized hl

theorem find?_key_of_map_insert {α β : Type} [DecidableEq α] (d : List (α × β)) (k : α) (v : β)
    (h : d.any (fun e => decide (e.1 = k)) = true) :
    (d.map (fun e => if e.1 = k then (k, v) else e)).find? (fun e => decide (e.1 = k)) =
      some (k, v) := by
  induction d with
  | nil => exact absurd h (by simp)
  | cons a rest ih =>
    by_cases hk : a.1 = k
    · simp [hk, List.find?]
    · have h2 : rest.any (fun e => decide (e.1 = k)) = true := by
        simpa [hk] using h
      simp only [List.map_cons, if_neg hk, List.find?, decide_eq_false hk]
      exact ih h2

theorem find?_key_of_append_insert {α β : Type} [DecidableEq α] (d : List (α × β)) (k : α)
    (v : β) (h : d.any (fun e => decide (e.1 = k)) = false) :
    (d ++ [(k, v)]).find? (fun e => decide (e.1 = k)) = some (k, v) := by
  induction d with
  | nil => simp [List.find?]
  | cons a rest ih =>
    rw [List.any_cons] at h
    have hk : ¬ a.1 = k := by
      intro hak
      simp [hak] at h
    have h2 : rest.any (fun e => decide (e.1 = k)) = false := by
      rcases Bool.or_eq_false_iff.1 h with ⟨h3, h4⟩
      exact h4
    simp only [List.cons_append, List.find?, decide_eq_false hk]
    exact ih h2

theorem dict_lookup_insert {α β : Type} [DecidableEq α] (d : List (α × β)) (k : α) (v : β) :
    dict_lookup (dict_insert d k v) k = some v := by
  by_cases h : d.any (fun e => decide (e.1 = k)) = true
  · unfold dict_insert
    rw [if_pos h]
    unfold dict_lookup
    rw [find?_key_of_map_insert d k v h]
  · have h2 : d.any (fun e => decide (e.1 = k)) = false := Bool.eq_false_iff.2 h
    unfold dict_insert
    rw [if_neg h]
    unfold dict_lookup
    rw [find?_key_of_append_insert d k v h2]

theorem parse_go_cons (d : List (String × String)) (line : String) (rest : List String) :
    parse_go d (line :: rest) =
      match process_line line with
      | LineResult.skip => parse_go d rest
      | LineResult.err => Except.error ()
      | LineResult.entry p o => parse_go (dict_insert d p o) rest := rfl

theorem parse_go_append (xs ys : List String) :
    ∀ d : List (String × String),
      parse_go d (xs ++ ys) =
        match parse_go d xs with
        | Except.ok d1 => parse_go d1 ys
        | Except.error e => Except.error e := by
  induction xs with
  | nil => intro d; rfl
  | cons line rest ih =>
    intro d
    rw [List.cons_append, parse_go_cons, parse_go_cons]
    cases hl : process_line line with
    | skip => exact ih d
    | err => rfl
    | entry p o => exact ih (dict_insert d p o)

theorem process_line_err_iff (line : String) :
    process_line line = LineResult.err ↔
      ¬ (line = "" ∨ starts_with (py_lstrip_ws line) "#" = true ∨
          (py_split line).length = 2) := by
  unfold process_line
  by_cases h1 : line = ""
  · simp [h1]
  · rw [if_neg h1]
    by_cases h2 : starts_with (py_lstrip_ws line) "#" = true
    · rw [if_pos h2]
      simp [h1, h2]
    · rw [if_neg h2]
      rcases h3 : py_split line with _ | ⟨a, _ | ⟨b, _ | ⟨c, t⟩⟩⟩
      · simp [h1, h2, h3]
      · simp [h1, h2, h3]
      · simp only [h3]
        split <;> simp [h1, h2, h3]
      · simp [h1, h2, h3]

theorem parse_go_ok_iff (lines : List String) :
    ∀ d0 : List (String × String),
      (∃ d, parse_go d0 lines = Except.ok d) ↔
        ∀ line ∈ lines, process_line line ≠ LineResult.err := by
  induction lines with
  | nil =>
    intro d0
    constructor
    · intro _ line hl
      exact absurd hl (List.not_mem_nil line)
    · intro _
      exact ⟨d0, rfl⟩
  | cons line rest ih =>
    intro d0
    rw [parse_go_cons]
    cases hl : process_line line with
    | skip =>
      rw [ih d0]
      simp [List.forall_mem_cons, hl]
    | err =>
      simp [List.forall_mem_cons, hl]
    | entry p o =>
      rw [ih (dict_insert d0 p o)]
      simp [List.forall_mem_cons, hl]

/-! ### Claims C1 through C8 about `request_review.py` -/

/-- C1 (code bug): the claim states that a candidate equal to the PR
author is silently skipped and no review-request call is issued for
them.  The source logs the skipping message but is missing a `return`,
so the call is issued anyway: `request_review` performs the
review-request call for the author, and at the end of a full run the
author (here `"bob"`, a member of the owning team) is present among
the users for whom review-request calls are issued. -/
theorem C1_author_call_issued :
    request_review "bob" "bob" true =
      [ReviewAction.skip_log "bob", ReviewAction.request_call "bob"] ∧
    run_request_users (run sample_inputs id) = ["alice", "bob"] := by
  constructor
  · decide
  · decide

/-- C2 (counterexample): the claim states one review-request call per
unique member login; with two matched teams both containing
`"alice"` (author `"bob"`), the run issues two calls for `"alice"`,
one per occurrence in the concatenated member lists. -/
theorem C2_counterexample :
    requested_users (issue_review_requests [["alice"], ["alice"]] "bob" (fun _ => true)) =
      ["alice", "alice"] := by
  decide

/-- C2 (amended): the program issues exactly one review-request call
per occurrence of a login in the concatenation of the matched teams'
member lists (`chain.from_iterable`, no deduplication, the PR author
not excluded): the issued-call list equals the flattened member
lists. -/
theorem C2_one_call_per_occurrence (member_lists : List (List String)) (pr_author : String)
    (call_ok : String → Bool) :
    requested_users (issue_review_requests member_lists pr_author call_ok) =
      member_lists.flatten :=
  requested_users_issue member_lists pr_author call_ok

/-- C3: for every parsed codeowners mapping, the owner assigned to a
changed file is the one attached to the first matching path prefix in
mapping order — an earlier matching prefix always beats any later
(possibly longer, more specific) one — and a file matching no prefix
yields no owner. -/
theorem C3_first_match_wins :
    (∀ (d1 d2 : List (String × String)) (p o file : String),
        starts_with file p = true →
        (∀ q ∈ d1, starts_with file q.1 = false) →
        find_owner (d1 ++ (p, o) :: d2) file = some o) ∧
    (∀ (d : List (String × String)) (file : String),
        (∀ q ∈ d, starts_with file q.1 = false) →
        find_owner d file = none) := by
  constructor
  · intro d1 d2 p o file hp hnone
    induction d1 with
    | nil => simp [find_owner, List.find?, hp]
    | cons q rest ih =>
      have hq := hnone q (List.mem_cons_self q rest)
      show find_owner (q :: (rest ++ (p, o) :: d2)) file = some o
      unfold find_owner
      rw [List.find?_cons_of_neg _ (by simp [hq])]
      exact ih (fun r hr => hnone r (List.mem_cons_of_mem q hr))
  · intro d file hnone
    induction d with
    | nil => rfl
    | cons q rest ih =>
      have hq := hnone q (List.mem_cons_self q rest)
      unfold find_owner
      rw [List.find?_cons_of_neg _ (by simp [hq])]
      exact ih (fun r hr => hnone r (List.mem_cons_of_mem q hr))

/-- Witness for C3: with the mapping `docs ↦ aa_AA, src ↦ bb_BB,
src/apple ↦ cc_CC`, the file `src/apple/x.c` is assigned `bb_BB`, the
first matching (less specific) prefix, not the later `cc_CC`. -/
theorem C3_witness :
    starts_with "src/apple/x.c" "src" = true ∧
    (∀ q ∈ ([("docs", "aa_AA")] : List (String × String)),
      starts_with "src/apple/x.c" q.1 = false) ∧
    find_owner ([("docs", "aa_AA")] ++ ("src", "bb_BB") :: [("src/apple", "cc_CC")])
      "src/apple/x.c" = some "bb_BB" :=
  ⟨by decide, by decide,
    C3_first_match_wins.1 [("docs", "aa_AA")] [("src/apple", "cc_CC")] "src" "bb_BB"
      "src/apple/x.c" (by decide) (by decide)⟩

/-- C4: only teams passing both eligibility checks contribute members:
every entry retained by CODEOWNERS parsing has an owner fully matching
the locale pattern `[a-z]{2}_[A-Z]{2}`, and `get_team_members` returns
the member logins only when the fetched team's parent slug is
`localization` — a team with no parent or a different parent yields
an empty member list. -/
theorem C4_eligibility :
    (∀ (lines : List String) (d : List (String × String)),
        parse_codeowners lines = Except.ok d →
        ∀ e ∈ d, is_localization_team e.2 = true) ∧
    (∀ t : Team, t.parent ≠ some ALLOWED_PARENT_TEAM → get_team_members t = []) ∧
    (∀ t : Team, t.parent = some ALLOWED_PARENT_TEAM → get_team_members t = t.members) := by
  refine ⟨?_, ?_, ?_⟩
  · intro lines d h
    exact parse_go_all_localized lines [] d h (fun e he => absurd he (List.not_mem_nil e))
  · intro t ht
    unfold get_team_members
    cases hp : t.parent with
    | none => rfl
    | some slug =>
      have hs : ¬ slug = ALLOWED_PARENT_TEAM := fun hs => ht (by rw [hp, hs])
      show (if slug = ALLOWED_PARENT_TEAM then t.members else []) = []
      rw [if_neg hs]
  · intro t ht
    unfold get_team_members
    rw [ht]
    show (if ALLOWED_PARENT_TEAM = ALLOWED_PARENT_TEAM then t.members else []) = t.members
    rw [if_pos rfl]

/-- Witness for C4: a parsed mapping retains only locale-pattern
owners; a team with parent `design` contributes no members; a team
with parent `localization` contributes its member list. -/
theorem C4_witness :
    parse_codeowners ["/docs fr_FR", "/web carol"] = Except.ok [("docs", "fr_FR")] ∧
    (∀ e ∈ ([("docs", "fr_FR")] : List (String × String)), is_localization_team e.2 = true) ∧
    get_team_members ⟨some "design", ["carol"]⟩ = [] ∧
    get_team_members ⟨some "localization", ["alice"]⟩ = ["alice"] :=
  ⟨rfl,
    C4_eligibility.1 ["/docs fr_FR", "/web carol"] [("docs", "fr_FR")] rfl,
    C4_eligibility.2.1 ⟨some "design", ["carol"]⟩ (by decide),
    C4_eligibility.2.2 ⟨some "localization", ["alice"]⟩ rfl⟩

/-- C6: when two retained CODEOWNERS lines carry the same path prefix,
the parsed mapping records the owner of the later line: appending a
retained line for path `p` with owner `o` makes the lookup of `p`
yield `o`, whatever earlier lines bound `p` to. -/
theorem C6_later_line_overwrites (ls : List String) (line p o : String)
    (d : List (String × String))
    (hline : process_line line = LineResult.entry p o)
    (hparse : parse_codeowners (ls ++ [line]) = Except.ok d) :
    dict_lookup d p = some o := by
  unfold parse_codeowners at hparse
  rw [parse_go_append] at hparse
  cases h1 : parse_go [] ls with
  | error e =>
    rw [h1] at hparse
    exact Except.noConfusion hparse
  | ok d1 =>
    rw [h1] at hparse
    have hp2 : parse_go d1 [line] = Except.ok d := hparse
    rw [parse_go_cons, hline] at hp2
    have hp3 : Except.ok (dict_insert d1 p o) = Except.ok d := hp2
    injection hp3 with h2
    rw [← h2]
    exact dict_lookup_insert d1 p o

/-- Witness for C6: the CODEOWNERS lines `/docs fr_FR` then
`/docs de_DE` parse to a mapping in which `docs` is owned by `de_DE`,
the later line. -/
theorem C6_witness :
    process_line "/docs de_DE" = LineResult.entry "docs" "de_DE" ∧
    parse_codeowners (["/docs fr_FR"] ++ ["/docs de_DE"]) = Except.ok [("docs", "de_DE")] ∧
    dict_lookup [("docs", "de_DE")] "docs" = some "de_DE" :=
  ⟨by decide, rfl,
    C6_later_line_overwrites ["/docs fr_FR"] "/docs de_DE" "docs" "de_DE"
      [("docs", "de_DE")] (by decide) rfl⟩

/-- C8: CODEOWNERS parsing is partial: it succeeds exactly when every
line is empty, is a comment after left-stripping, or splits into
exactly two whitespace-separated tokens; any other line (including a
whitespace-only line, or a line with zero or two-plus owner tokens)
raises `ValueError` and aborts the run. -/
theorem C8_parse_partiality (ls : List String) :
    (∃ d, parse_codeowners ls = Except.ok d) ↔
      ∀ line ∈ ls, line = "" ∨ starts_with (py_lstrip_ws line) "#" = true ∨
        (py_split line).length = 2 := by
  unfold parse_codeowners
  rw [parse_go_ok_iff ls []]
  constructor
  · intro h line hl
    by_contra hc
    exact h line hl ((process_line_err_iff line).2 hc)
  · intro h line hl herr
    exact (process_line_err_iff line).1 herr (h line hl)

theorem fetch_members_all_error_iff (tf : String → Except Unit Team) (owners : List String) :
    fetch_members_all tf owners = Except.error () ↔ ∃ o ∈ owners, tf o = Except.error () := by
  induction owners with
  | nil =>
    constructor
    · intro h
      exact Except.noConfusion h
    · rintro ⟨o, ho, _⟩
      exact absurd ho (List.not_mem_nil o)
  | cons a rest ih =>
    constructor
    · intro h
      unfold fetch_members_all at h
      cases ha : tf a with
      | error e => exact ⟨a, List.mem_cons_self a rest, ha⟩
      | ok t =>
        rw [ha] at h
        cases hr : fetch_members_all tf rest with
        | error e =>
          rcases ih.1 hr with ⟨o, ho, hoe⟩
          exact ⟨o, List.mem_cons_of_mem a ho, hoe⟩
        | ok ms =>
          rw [hr] at h
          exact Except.noConfusion h
    · rintro ⟨o, ho, hoe⟩
      unfold fetch_members_all
      rcases List.mem_cons.1 ho with h1 | h2
      · rw [← h1, hoe]
      · cases ha : tf a with
        | error e => rfl
        | ok t =>
          rw [ih.2 ⟨o, h2, hoe⟩]

theorem fetch_members_all_ok_mem (tf : String → Except Unit Team) (owners : List String) :
    ∀ mls : List (List String), fetch_members_all tf owners = Except.ok mls →
      ∀ u : String,
        (u ∈ mls.flatten ↔ ∃ o ∈ owners, ∃ t, tf o = Except.ok t ∧ u ∈ get_team_members t) := by
  induction owners with
  | nil =>
    intro mls h u
    have h2 : Except.ok ([] : List (List String)) = Except.ok mls := h
    injection h2 with h3
    rw [← h3]
    simp
  | cons a rest ih =>
    intro mls h u
    unfold fetch_members_all at h
    cases ha : tf a with
    | error e =>
      rw [ha] at h
      exact Except.noConfusion h
    | ok t =>
      rw [ha] at h
      cases hr : fetch_members_all tf rest with
      | error e =>
        rw [hr] at h
        exact Except.noConfusion h
      | ok ms =>
        rw [hr] at h
        injection h with h2
        rw [← h2]
        have hih := ih ms hr u
        simp only [List.flatten_cons, List.mem_append, hih, List.mem_cons]
        constructor
        · rintro (h1 | ⟨o, ho, t2, ht2, hu⟩)
          · exact ⟨a, Or.inl rfl, t, ha, h1⟩
          · exact ⟨o, Or.inr ho, t2, ht2, hu⟩
        · rintro ⟨o, ho | ho, t2, ht2, hu⟩
          · rw [ho, ha] at ht2
            injection ht2 with h3
            rw [h3]
            exact Or.inl hu
          · exact Or.inr ⟨o, ho, t2, ht2, hu⟩

/-- C5: failures divide into two classes.  A failed fetch of the
changed-file list, the PR author, the CODEOWNERS file, or any matched
team aborts the whole run (`sys.exit(1)`, modelled `Except.error`),
whereas review-request call outcomes never change the run's
success/failure status nor the list of attempted review-request calls
(each call is attempted exactly once, with no retry in either
class). -/
theorem C5_two_error_classes :
    (∀ (inp : RunInputs) (f : List String → List String),
        inp.changed_files = Except.error () → run inp f = Except.error ()) ∧
    (∀ (inp : RunInputs) (f : List String → List String),
        inp.author_fetch = Except.error () → run inp f = Except.error ()) ∧
    (∀ (inp : RunInputs) (f : List String → List String),
        inp.codeowners_fetch = Except.error () → run inp f = Except.error ()) ∧
    (∀ (tf : String → Except Unit Team) (owners : List String) (o : String),
        o ∈ owners → tf o = Except.error () →
        fetch_members_all tf owners = Except.error ()) ∧
    (∀ (inp : RunInputs) (g : String → Bool) (f : List String → List String),
        (run { inp with review_ok := g } f = Except.error ()) ↔
          (run inp f = Except.error ())) ∧
    (∀ (inp : RunInputs) (g : String → Bool) (f : List String → List String),
        run_request_users (run { inp with review_ok := g } f) =
          run_request_users (run inp f)) := by
  refine ⟨?_, ?_, ?_, ?_, ?_, ?_⟩
  · intro inp f h
    unfold run
    rw [h]
  · intro inp f h
    unfold run
    cases hc : inp.changed_files with
    | error e => rfl
    | ok files => rw [h]
  · intro inp f h
    unfold run
    cases hc : inp.changed_files with
    | error e => rfl
    | ok files =>
      cases ha : inp.author_fetch with
      | error e => rfl
      | ok author => rw [h]
  · intro tf owners o ho herr
    exact (fetch_members_all_error_iff tf owners).2 ⟨o, ho, herr⟩
  · intro inp g f
    obtain ⟨cf, af, cof, tf, rv⟩ := inp
    cases cf with
    | error e => simp [run]
    | ok files =>
      cases af with
      | error e => simp [run]
      | ok author =>
        cases cof with
        | error e => simp [run]
        | ok lines =>
          cases hp : parse_codeowners lines with
          | error e => simp [run, hp]
          | ok codeowners =>
            cases hm : fetch_members_all tf (f (found_owners codeowners files)) with
            | error e => simp [run, hp, hm]
            | ok mls => simp [run, hp, hm]
  · intro inp g f
    obtain ⟨cf, af, cof, tf, rv⟩ := inp
    cases cf with
    | error e => rfl
    | ok files =>
      cases af with
      | error e => rfl
      | ok author =>
        cases cof with
        | error e => rfl
        | ok lines =>
          cases hp : parse_codeowners lines with
          | error e => simp [run, hp]
          | ok codeowners =>
            cases hm : fetch_members_all tf (f (found_owners codeowners files)) with
            | error e => simp [run, hp, hm]
            | ok mls =>
              simp only [run, hp, hm, run_request_users]
              rw [requested_users_issue, requested_users_issue]

/-- Witness for C5: each error-class fact instantiated on concrete
inputs — every fatal fetch failure aborts the concrete run, and
flipping every review-request call to failure leaves the concrete
run's status and attempted-call list unchanged. -/
theorem C5_witness :
    run { sample_inputs with changed_files := Except.error () } id = Except.error () ∧
    run { sample_inputs with author_fetch := Except.error () } id = Except.error () ∧
    run { sample_inputs with codeowners_fetch := Except.error () } id = Except.error () ∧
    ("fr_FR" ∈ ["fr_FR"] ∧
      fetch_members_all (fun _ => Except.error ()) ["fr_FR"] = Except.error ()) ∧
    ((run { sample_inputs with review_ok := fun _ => false } id = Except.error ()) ↔
      (run sample_inputs id = Except.error ())) ∧
    run_request_users (run { sample_inputs with review_ok := fun _ => false } id) =
      run_request_users (run sample_inputs id) :=
  ⟨C5_two_error_classes.1 _ id rfl,
    C5_two_error_classes.2.1 _ id rfl,
    C5_two_error_classes.2.2.1 _ id rfl,
    ⟨List.mem_singleton.2 rfl,
      C5_two_error_classes.2.2.2.1 (fun _ => Except.error ()) ["fr_FR"] "fr_FR"
        (List.mem_singleton.2 rfl) rfl⟩,
    C5_two_error_classes.2.2.2.2.1 sample_inputs (fun _ => false) id,
    C5_two_error_classes.2.2.2.2.2 sample_inputs (fun _ => false) id⟩

/-- C7: the final review-request set is a deterministic function of
the run inputs: whatever enumeration orders are used for the
`found_owners` set and whatever the outcomes of the individual
review-request calls, two runs on the same fetched inputs agree on
success/failure and on the set of users for whom review-request calls
are issued. -/
theorem C7_determinism (inp : RunInputs) (f g : List String → List String)
    (okf okg : String → Bool)
    (hf : ∀ l : List String, List.Perm (f l) l) (hg : ∀ l : List String, List.Perm (g l) l) :
    ((run { inp with review_ok := okf } f = Except.error ()) ↔
      (run { inp with review_ok := okg } g = Except.error ())) ∧
    (∀ u, u ∈ run_request_users (run { inp with review_ok := okf } f) ↔
      u ∈ run_request_users (run { inp with review_ok := okg } g)) := by
  obtain ⟨cf, af, cof, tf, rv⟩ := inp
  cases cf with
  | error e => exact ⟨Iff.rfl, fun u => Iff.rfl⟩
  | ok files =>
    cases af with
    | error e => exact ⟨Iff.rfl, fun u => Iff.rfl⟩
    | ok author =>
      cases cof with
      | error e => exact ⟨Iff.rfl, fun u => Iff.rfl⟩
      | ok lines =>
        cases hp : parse_codeowners lines with
        | error e => constructor <;> simp [run, hp]
        | ok codeowners =>
          have hperm : List.Perm (f (found_owners codeowners files))
              (g (found_owners codeowners files)) :=
            (hf (found_owners codeowners files)).trans
              (hg (found_owners codeowners files)).symm
          cases hm1 : fetch_members_all tf (f (found_owners codeowners files)) with
          | error e =>
            have herr2 : fetch_members_all tf (g (found_owners codeowners files)) =
                Except.error () := by
              rcases (fetch_members_all_error_iff tf _).1 hm1 with ⟨o, ho, hoe⟩
              exact (fetch_members_all_error_iff tf _).2 ⟨o, hperm.subset ho, hoe⟩
            constructor <;> simp [run, hp, hm1, herr2]
          | ok mls1 =>
            cases hm2 : fetch_members_all tf (g (found_owners codeowners files)) with
            | error e =>
              rcases (fetch_members_all_error_iff tf _).1 hm2 with ⟨o, ho, hoe⟩
              have : fetch_members_all tf (f (found_owners codeowners files)) =
                  Except.error () :=
                (fetch_members_all_error_iff tf _).2 ⟨o, hperm.symm.subset ho, hoe⟩
              rw [hm1] at this
              exact Except.noConfusion this
            | ok mls2 =>
              constructor
              · simp [run, hp, hm1, hm2]
              · intro u
                simp only [run, hp, hm1, hm2, run_request_users]
                rw [requested_users_issue, requested_users_issue]
                rw [fetch_members_all_ok_mem tf _ mls1 hm1 u,
                  fetch_members_all_ok_mem tf _ mls2 hm2 u]
                constructor
                · rintro ⟨o, ho, t, ht, hu⟩
                  exact ⟨o, hperm.subset ho, t, ht, hu⟩
                · rintro ⟨o, ho, t, ht, hu⟩
                  exact ⟨o, hperm.symm.subset ho, t, ht, hu⟩

/-- Witness for C7: the determinism theorem instantiated on the
concrete sample inputs with the identity enumeration order. -/
theorem C7_witness :
    (∀ l : List String, List.Perm (id l) l) ∧
    ((run { sample_inputs with review_ok := fun _ => true } id = Except.error ()) ↔
      (run { sample_inputs with review_ok := fun _ => true } id = Except.error ())) ∧
    ("alice" ∈ run_request_users (run { sample_inputs with review_ok := fun _ => true } id) ↔
      "alice" ∈ run_request_users (run { sample_inputs with review_ok := fun _ => true } id)) :=
  ⟨fun l => List.Perm.refl l,
    (C7_determinism sample_inputs id id (fun _ => true) (fun _ => true)
      (fun l => List.Perm.refl l) (fun l => List.Perm.refl l)).1,
    (C7_determinism sample_inputs id id (fun _ => true) (fun _ => true)
      (fun l => List.Perm.refl l) (fun l => List.Perm.refl l)).2 "alice"⟩

/-! ### Helper lemmas for the codegen script -/

theorem dict_keys_insert {α β : Type} [DecidableEq α] (d : List (α × β)) (k : α) (v : β)
    (x : α) : x ∈ dict_keys (dict_insert d k v) ↔ x ∈ dict_keys d ∨ x = k := by
  unfold dict_insert dict_keys
  split
  case isTrue h =>
    have hkeys : (d.map (fun e => if e.1 = k then (k, v) else e)).map (fun e => e.1) =
        d.map (fun e => e.1) := by
      rw [List.map_map]
      apply List.map_congr_left
      intro e he
      by_cases hk : e.1 = k
      · simp [hk]
      · simp [hk]
    rw [hkeys]
    constructor
    · exact Or.inl
    · rintro (h1 | rfl)
      · exact h1
      · rcases List.any_eq_true.1 h with ⟨e, he, hek⟩
        exact List.mem_map.2 ⟨e, he, of_decide_eq_true hek⟩
  case isFalse h =>
    simp [List.map_append]

theorem dict_keys_foldl_insert_attrs {A : Type} (l : List (Int × A)) (x : Int) :
    ∀ d : List (Int × A),
      x ∈ dict_keys (l.foldl (fun d2 kv => dict_insert d2 kv.1 kv.2) d) ↔
        x ∈ dict_keys d ∨ ∃ a, (x, a) ∈ l := by
  induction l with
  | nil => intro d; simp
  | cons kv rest ih =>
    intro d
    rw [List.foldl_cons, ih (dict_insert d kv.1 kv.2), dict_keys_insert]
    constructor
    · rintro ((h1 | h1) | ⟨a, ha⟩)
      · exact Or.inl h1
      · refine Or.inr ⟨kv.2, ?_⟩
        rw [h1]
        exact List.mem_cons_self kv rest
      · exact Or.inr ⟨a, List.mem_cons_of_mem kv ha⟩
    · rintro (h1 | ⟨a, ha⟩)
      · exact Or.inl (Or.inl h1)
      · rcases List.mem_cons.1 ha with h2 | h2
        · exact Or.inl (Or.inr (congrArg Prod.fst h2))
        · exact Or.inr ⟨a, h2⟩

theorem dict_keys_foldl_insert_range {A : Type} (l : List Int) (v : A) (x : Int) :
    ∀ d : List (Int × A),
      x ∈ dict_keys (l.foldl (fun d2 cp => dict_insert d2 cp v) d) ↔
        x ∈ dict_keys d ∨ x ∈ l := by
  induction l with
  | nil => intro d; simp
  | cons cp rest ih =>
    intro d
    rw [List.foldl_cons, ih (dict_insert d cp v), dict_keys_insert, List.mem_cons]
    exact or_assoc

theorem mem_keys_build_go {A : Type} (patch_sets : List (PatchSet A)) (x : Int) :
    ∀ d : List (Int × A),
      x ∈ dict_keys (patch_sets.foldl
        (fun entries e =>
          e.int_attrs.foldl (fun d2 kv => dict_insert d2 kv.1 kv.2)
            ((range_list e.symStart e.symEnd).foldl
              (fun d2 cp => dict_insert d2 cp e.default_attr) entries)) d) ↔
        x ∈ dict_keys d ∨
          ∃ e ∈ patch_sets, x ∈ range_list e.symStart e.symEnd ∨
            ∃ a, (x, a) ∈ e.int_attrs := by
  induction patch_sets with
  | nil => intro d; simp
  | cons e rest ih =>
    intro d
    rw [List.foldl_cons, ih, dict_keys_foldl_insert_attrs, dict_keys_foldl_insert_range]
    constructor
    · rintro (((h1 | h1) | h1) | ⟨e2, he2, h2⟩)
      · exact Or.inl h1
      · exact Or.inr ⟨e, List.mem_cons_self e rest, Or.inl h1⟩
      · exact Or.inr ⟨e, List.mem_cons_self e rest, Or.inr h1⟩
      · exact Or.inr ⟨e2, List.mem_cons_of_mem e he2, h2⟩
    · rintro (h1 | ⟨e2, he2, h2⟩)
      · exact Or.inl (Or.inl (Or.inl h1))
      · rcases List.mem_cons.1 he2 with h3 | h3
        · rcases h2 with h4 | h4
          · exact Or.inl (Or.inl (Or.inr (h3 ▸ h4)))
          · exact Or.inl (Or.inr (h3 ▸ h4))
        · exact Or.inr ⟨e2, h3, h2⟩

theorem mem_keys_build_entries {A : Type} (patch_sets : List (PatchSet A)) (x : Int) :
    x ∈ dict_keys (build_entries patch_sets) ↔
      ∃ e ∈ patch_sets, x ∈ range_list e.symStart e.symEnd ∨
        ∃ a, (x, a) ∈ e.int_attrs := by
  rw [show build_entries patch_sets = patch_sets.foldl
      (fun entries e =>
        e.int_attrs.foldl (fun d2 kv => dict_insert d2 kv.1 kv.2)
          ((range_list e.symStart e.symEnd).foldl
            (fun d2 cp => dict_insert d2 cp e.default_attr) entries)) [] from rfl]
  rw [mem_keys_build_go patch_sets x []]
  simp [dict_keys]

theorem mem_range_list (lo hi x : Int) : x ∈ range_list lo hi ↔ lo ≤ x ∧ x ≤ hi := by
  unfold range_list
  simp only [List.mem_map, List.mem_range]
  constructor
  · rintro ⟨i, hi2, rfl⟩
    omega
  · rintro ⟨h1, h2⟩
    exact ⟨(x - lo).toNat, by omega, by omega⟩

theorem any_key_zero {A : Type} (entries : List (Int × A)) :
    (entries.any (fun e => decide (e.1 = 0)) = true) ↔ (0 : Int) ∈ dict_keys entries := by
  rw [List.any_eq_true]
  unfold dict_keys
  constructor
  · rintro ⟨e, he, hek⟩
    exact List.mem_map.2 ⟨e, he, of_decide_eq_true hek⟩
  · intro h
    rcases List.mem_map.1 h with ⟨e, he, he0⟩
    exact ⟨e, he, decide_eq_true he0⟩

theorem mem_group_values {A K : Type} [DecidableEq K] (key : A → K) (entries : List (Int × A))
    (g : List Int) (hg : g ∈ group_values key entries) (x : Int) (hx : x ∈ g) :
    x ∈ dict_keys entries := by
  unfold group_values at hg
  rcases List.mem_map.1 hg with ⟨kk, hkk, hgeq⟩
  rw [← hgeq] at hx
  rcases List.mem_map.1 hx with ⟨e, he, heq2⟩
  exact List.mem_map.2 ⟨e, (List.mem_filter.1 he).1, heq2⟩

theorem generate_zig_switch_arms_eq {A K : Type} [DecidableEq K] (key : A → K)
    (patch_sets : List (PatchSet A)) :
    generate_zig_switch_arms key patch_sets =
      if (build_entries patch_sets).any (fun e => decide (e.1 = 0)) then
        Except.ok (py_sorted_groups (group_values key
          ((build_entries patch_sets).filter (fun e => decide (¬ e.1 = 0)))))
      else Except.error () := rfl

/-- C9: `generate_zig_switch_arms` requires codepoint 0 to be covered:
it raises `KeyError` (modelled as an error result) unless some patch
set maps codepoint 0, either through `SymStart ≤ 0 ≤ SymEnd` or
through an explicit integer attribute key 0; when that holds,
codepoint 0 is deleted before grouping, so 0 never appears in any
emitted switch-arm group. -/
theorem C9_zero_deleted {A K : Type} [DecidableEq K] (key : A → K)
    (patch_sets : List (PatchSet A)) :
    ((∃ groups, generate_zig_switch_arms key patch_sets = Except.ok groups) ↔
      ∃ e ∈ patch_sets, (e.symStart ≤ 0 ∧ 0 ≤ e.symEnd) ∨
        ∃ a, ((0 : Int), a) ∈ e.int_attrs) ∧
    (∀ groups, generate_zig_switch_arms key patch_sets = Except.ok groups →
      ∀ g ∈ groups, (0 : Int) ∉ g) := by
  have hchar : ((build_entries patch_sets).any (fun e => decide (e.1 = 0)) = true) ↔
      ∃ e ∈ patch_sets, (e.symStart ≤ 0 ∧ 0 ≤ e.symEnd) ∨
        ∃ a, ((0 : Int), a) ∈ e.int_attrs := by
    rw [any_key_zero, mem_keys_build_entries]
    constructor
    · rintro ⟨e, he, hr | hi⟩
      · exact ⟨e, he, Or.inl ((mem_range_list _ _ _).1 hr)⟩
      · exact ⟨e, he, Or.inr hi⟩
    · rintro ⟨e, he, hb | hi⟩
      · exact ⟨e, he, Or.inl ((mem_range_list _ _ _).2 hb)⟩
      · exact ⟨e, he, Or.inr hi⟩
  constructor
  · rw [generate_zig_switch_arms_eq]
    by_cases h : (build_entries patch_sets).any (fun e => decide (e.1 = 0)) = true
    · rw [if_pos h]
      constructor
      · intro _
        exact hchar.1 h
      · intro _
        exact ⟨_, rfl⟩
    · rw [if_neg h]
      constructor
      · rintro ⟨groups, hgr⟩
        exact Except.noConfusion hgr
      · intro hex
        exact absurd (hchar.2 hex) h
  · intro groups hgr g hgg hx0
    rw [generate_zig_switch_arms_eq] at hgr
    by_cases h : (build_entries patch_sets).any (fun e => decide (e.1 = 0)) = true
    · rw [if_pos h] at hgr
      injection hgr with h2
      rw [← h2] at hgg
      unfold py_sorted_groups at hgg
      rw [List.mem_insertionSort] at hgg
      have hxk := mem_group_values key _ g hgg 0 hx0
      unfold dict_keys at hxk
      rcases List.mem_map.1 hxk with ⟨e, he, he0⟩
      exact of_decide_eq_true (List.mem_filter.1 he).2 he0
    · rw [if_neg h] at hgr
      exact Except.noConfusion hgr

/-- Witness for C9: a single patch set covering `-1..4` makes the
generator succeed with one group, and codepoint 0 is absent from that
group. -/
theorem C9_witness : (0 : Int) ∉ ([-1, 1, 2, 3, 4] : List Int) := by
  have h : generate_zig_switch_arms (fun _ : Unit => (0 : Nat)) [⟨-1, 4, (), []⟩] =
      Except.ok [[-1, 1, 2, 3, 4]] := rfl
  exact (C9_zero_deleted (fun _ : Unit => (0 : Nat)) [⟨-1, 4, (), []⟩]).2
    [[-1, 1, 2, 3, 4]] h [-1, 1, 2, 3, 4] (by decide)

theorem coalesce_go_cons (start prev cp : Int) (rest : List Int) :
    coalesce_go start prev (cp :: rest) =
      if cp = prev + 1 then coalesce_go start cp rest
      else (start, prev) :: coalesce_go cp cp rest := rfl

theorem coalesce_go_head (l : List Int) :
    ∀ start prev : Int, ∃ e tl, coalesce_go start prev l = (start, e) :: tl := by
  induction l with
  | nil =>
    intro s p
    exact ⟨p, [], rfl⟩
  | cons cp rest ih =>
    intro s p
    rw [coalesce_go_cons]
    by_cases h : cp = p + 1
    · rw [if_pos h]
      exact ih s cp
    · rw [if_neg h]
      exact ⟨p, coalesce_go cp cp rest, rfl⟩

theorem coalesce_go_bounds (l : List Int) :
    ∀ start prev : Int, List.Chain (fun a b : Int => a < b) prev l → start ≤ prev →
      ∀ r ∈ coalesce_go start prev l, r.1 ≤ r.2 := by
  induction l with
  | nil =>
    intro s p _ hsp r hr
    rw [List.mem_singleton.1 hr]
    exact hsp
  | cons cp rest ih =>
    intro s p hc hsp r hr
    rcases List.chain_cons.1 hc with ⟨h1, h2⟩
    rw [coalesce_go_cons] at hr
    by_cases h : cp = p + 1
    · rw [if_pos h] at hr
      exact ih s cp h2 (by omega) r hr
    · rw [if_neg h] at hr
      rcases List.mem_cons.1 hr with h3 | hr2
      · rw [h3]
        exact hsp
      · exact ih cp cp h2 (le_refl cp) r hr2

theorem coalesce_go_chain (l : List Int) :
    ∀ start prev : Int, List.Chain (fun a b : Int => a < b) prev l →
      List.Chain' (fun r s : Int × Int => r.2 + 1 < s.1) (coalesce_go start prev l) := by
  induction l with
  | nil =>
    intro s p _
    exact List.chain'_singleton (s, p)
  | cons cp rest ih =>
    intro s p hc
    rcases List.chain_cons.1 hc with ⟨h1, h2⟩
    rw [coalesce_go_cons]
    by_cases h : cp = p + 1
    · rw [if_pos h]
      exact ih s cp h2
    · rw [if_neg h]
      rcases coalesce_go_head rest cp cp with ⟨e2, tl, heq⟩
      rw [heq, List.chain'_cons]
      constructor
      · show p + 1 < cp
        omega
      · rw [← heq]
        exact ih cp cp h2

theorem coalesce_go_mem (l : List Int) :
    ∀ start prev : Int, List.Chain (fun a b : Int => a < b) prev l → start ≤ prev →
      ∀ x : Int,
        in_ranges (coalesce_go start prev l) x ↔ (start ≤ x ∧ x ≤ prev) ∨ x ∈ l := by
  induction l with
  | nil =>
    intro s p _ _ x
    unfold in_ranges
    rw [show coalesce_go s p [] = [(s, p)] from rfl]
    simp
  | cons cp rest ih =>
    intro s p hc hsp x
    rcases List.chain_cons.1 hc with ⟨h1, h2⟩
    rw [coalesce_go_cons]
    by_cases h : cp = p + 1
    · rw [if_pos h]
      rw [ih s cp h2 (by omega) x, List.mem_cons]
      constructor
      · rintro (⟨ha, hb⟩ | hm)
        · by_cases hx : x ≤ p
          · exact Or.inl ⟨ha, hx⟩
          · exact Or.inr (Or.inl (by omega))
        · exact Or.inr (Or.inr hm)
      · rintro (⟨ha, hb⟩ | hx | hm)
        · exact Or.inl ⟨ha, by omega⟩
        · exact Or.inl ⟨by omega, by omega⟩
        · exact Or.inr hm
    · rw [if_neg h]
      unfold in_ranges
      rw [List.mem_cons]
      have hih := ih cp cp h2 (le_refl cp) x
      unfold in_ranges at hih
      constructor
      · rintro ⟨r, hr, hxr⟩
        rcases List.mem_cons.1 hr with h3 | hr2
        · rw [h3] at hxr
          exact Or.inl hxr
        · rcases hih.1 ⟨r, hr2, hxr⟩ with ⟨ha, hb⟩ | hm
          · exact Or.inr (Or.inl (by omega))
          · exact Or.inr (Or.inr hm)
      · rintro (⟨ha, hb⟩ | hx | hm)
        · exact ⟨(s, p), List.mem_cons_self _ _, ha, hb⟩
        · rcases hih.2 (Or.inl (by omega)) with ⟨r, hr, hxr⟩
          exact ⟨r, List.mem_cons_of_mem _ hr, hxr⟩
        · rcases hih.2 (Or.inr hm) with ⟨r, hr, hxr⟩
          exact ⟨r, List.mem_cons_of_mem _ hr, hxr⟩

/-- C10: for every list of distinct integers,
`coalesce_codepoints_to_ranges` returns ranges with `start ≤ end`,
in strictly increasing order with a gap of at least one between
consecutive ranges, whose union of closed intervals is exactly the set
of input integers; the empty list yields the empty list. -/
theorem C10_coalesce_ranges (l : List Int) (hnd : l.Nodup) :
    (∀ r ∈ coalesce_codepoints_to_ranges l, r.1 ≤ r.2) ∧
    List.Chain' (fun r s : Int × Int => r.2 + 1 < s.1) (coalesce_codepoints_to_ranges l) ∧
    (∀ x : Int, in_ranges (coalesce_codepoints_to_ranges l) x ↔ x ∈ l) ∧
    coalesce_codepoints_to_ranges [] = [] := by
  have hperm : List.Perm (py_sorted l) l := List.perm_insertionSort _ l
  have hsorted : List.Sorted (fun a b : Int => a ≤ b) (py_sorted l) :=
    List.sorted_insertionSort _ l
  have hnd2 : (py_sorted l).Nodup := (hperm.nodup_iff).2 hnd
  have hlt : List.Pairwise (fun a b : Int => a < b) (py_sorted l) :=
    (List.Pairwise.and hsorted hnd2).imp (fun hab => lt_of_le_of_ne hab.1 hab.2)
  have hmem : ∀ y : Int, y ∈ l ↔ y ∈ py_sorted l := fun y => (hperm.mem_iff).symm
  unfold coalesce_codepoints_to_ranges
  cases hs : py_sorted l with
  | nil =>
    refine ⟨?_, List.chain'_nil, ?_, rfl⟩
    · intro r hr
      exact absurd hr (List.not_mem_nil r)
    · intro x
      unfold in_ranges
      rw [hmem x, hs]
      simp
  | cons c rest =>
    rw [hs] at hlt
    have hchain : List.Chain (fun a b : Int => a < b) c rest :=
      (List.chain_iff_pairwise).2 hlt
    refine ⟨coalesce_go_bounds rest c c hchain (le_refl c),
      coalesce_go_chain rest c c hchain, ?_, rfl⟩
    intro x
    rw [coalesce_go_mem rest c c hchain (le_refl c) x, hmem x, hs, List.mem_cons]
    constructor
    · rintro (⟨ha, hb⟩ | hm)
      · exact Or.inl (le_antisymm hb ha)
      · exact Or.inr hm
    · rintro (h3 | hm)
      · rw [h3]
        exact Or.inl ⟨le_refl c, le_refl c⟩
      · exact Or.inr hm

/-- Witness for C10: the distinct input `[5, 1, 2, 7]` satisfies all
four conclusions (it coalesces to `[(1, 2), (5, 5), (7, 7)]`). -/
theorem C10_witness :
    ([5, 1, 2, 7] : List Int).Nodup ∧
    ((∀ r ∈ coalesce_codepoints_to_ranges [5, 1, 2, 7], r.1 ≤ r.2) ∧
      List.Chain' (fun r s : Int × Int => r.2 + 1 < s.1)
        (coalesce_codepoints_to_ranges [5, 1, 2, 7]) ∧
      (∀ x : Int, in_ranges (coalesce_codepoints_to_ranges [5, 1, 2, 7]) x ↔
        x ∈ ([5, 1, 2, 7] : List Int)) ∧
      coalesce_codepoints_to_ranges [] = []) :=
  ⟨by decide, C10_coalesce_ranges [5, 1, 2, 7] (by decide)⟩
